import Mathlib

/-!
Verification of the ensemble-net online-training core (`ens_sel.py`) and the
model-persistence utility (`ensemble_net/util.py`).

The development shallowly embeds:
* the validation split (`val == 'first' | 'last' | 'random'`, lines 130-145),
  with Python's `range(a, b)` over integers and `random.choice` abstracted by
  an oracle giving a valid position into the remaining candidate list;
* the chunk partitioning `while` loop (lines 148-152), with the loop's fuel
  bounded by `len(train_set)` (sufficient whenever `chunk_size >= 1`);
* the parameter checks on `variables` (lines 56-71) and the strategy check
  (line 144), both of which the spec groups under `ConfigurationError`;
* the online training loop (lines 199-227) as a step function over a scheduler
  state.  Each (loop, chunk) iteration obtains the current batch (synchronous
  priming on the very first iteration, otherwise a read of the Manager-dict
  handoff slot), launches a background worker for the next chunk index,
  fits, and joins.  The worker's effect is linearized at a point chosen by a
  schedule `sigma` anywhere inside its launch-join window; the join barrier
  applies the slot update to the state before the next iteration.  Because
  CPython's `multiprocessing.Process.join()` does not re-raise exceptions of
  the child, a worker whose extraction fails simply leaves the slot unchanged
  and the main flow continues; only a main-flow extraction failure (priming)
  or a read of a never-written slot (`KeyError`) aborts the run.  The slot is
  modelled as holding one materialized SampleBatch value; the join barrier is
  what makes its two keys (`p`, `t`) behave as one atomically handed-off value;
* the per-iteration aliasing discipline (`shared_chunk['p'].copy()`, worker
  rebinding of the dict keys) and `save_model`'s deepcopy, over an explicit
  address/heap model in which arrays and model objects have identity.
-/

/-- Errors a run of the script can terminate with.  The spec groups the
`ValueError` of the strategy check and the `TypeError` of the variables check
under `ConfigurationError`; `indexError` is Python's `IndexError`
(`random.choice` on an empty sequence), `keyError` a `KeyError` reading a
never-written Manager-dict key, and `extractorError` an exception raised by
the sample-extraction pipeline in the main flow. -/
inductive RunErr where
  | configError
  | indexError
  | extractorError
  | keyError
deriving DecidableEq, Repr

deriving instance DecidableEq for Except

/-- Python's `list(range(a, b))` over integers (empty when `b <= a`). -/
def pyRange (a b : Int) : List Int :=
  (List.range (b - a).toNat).map (fun i : Nat => a + (i : Int))

/-- The `random` branch of the validation split (lines 136-142): `m` draws
remain, `j` counts draws made so far (feeding the oracle), `train_set` is the
remaining candidate list and `val_set` the draws so far.  Each step models
`i = random.choice(train_set); val_set.append(i); train_set.remove(i)`;
`random.choice` on an empty list raises `IndexError`. -/
def drawVal (oracle : Nat → Nat) : Nat → Nat → List Int → List Int →
    Except RunErr (List Int × List Int)
  | 0, _, train_set, val_set => .ok (train_set, val_set)
  | m + 1, j, train_set, val_set =>
    if h : train_set.length = 0 then .error .indexError
    else
      let i := train_set.get ⟨oracle j % train_set.length,
        Nat.mod_lt _ (Nat.pos_of_ne_zero h)⟩
      drawVal oracle m (j + 1) (train_set.erase i) (val_set ++ [i])

/-- The validation split (lines 130-145), returning `(train_set, val_set)`.
The unrecognized-strategy branch is the `raise ValueError` of line 145, and
`val_set.sort()` is an ascending stable sort. -/
def splitSets (val : String) (numDates valSize : Nat) (oracle : Nat → Nat) :
    Except RunErr (List Int × List Int) :=
  if val = "first" then
    .ok (pyRange valSize numDates, pyRange 0 valSize)
  else if val = "last" then
    .ok (pyRange 0 ((numDates : Int) - valSize), pyRange ((numDates : Int) - valSize) numDates)
  else if val = "random" then
    match drawVal oracle valSize 0 (pyRange 0 numDates) [] with
    | .ok (train_set, val_set) => .ok (train_set, List.insertionSort (· ≤ ·) val_set)
    | .error e => .error e
  else .error .configError

/-- The chunk-partitioning `while` loop of lines 148-152, with explicit fuel.
Each iteration appends `train_set[index : index + chunk_size]` and advances
`index` by `chunk_size`. -/
def chunksFrom (train_set : List Int) (chunk_size : Nat) : Nat → Nat → List (List Int)
  | 0, _ => []
  | fuel + 1, index =>
    if index < train_set.length then
      (train_set.drop index).take chunk_size ::
        chunksFrom train_set chunk_size fuel (index + chunk_size)
    else []

/-- The chunk list built from `train_set`.  A fuel of `len(train_set)` bounds
the number of loop iterations whenever `chunk_size >= 1`. -/
def mkChunks (train_set : List Int) (chunk_size : Nat) : List (List Int) :=
  chunksFrom train_set chunk_size train_set.length 0

/-- Python values the `variables` configuration parameter can hold (the
shapes distinguished by lines 56-71: `None`, strings, integers, lists and
tuples). -/
inductive PyVal where
  | pynone : PyVal
  | str : String → PyVal
  | int : Int → PyVal
  | list : List PyVal → PyVal
  | tuple : List PyVal → PyVal

/-- Python's `int(v)` where it matters for the parameter check: succeeds on
integers and on decimal strings, raises `TypeError`/`ValueError` otherwise. -/
def pyToInt : PyVal → Option Int
  | .int n => some n
  | .str s => s.toInt?
  | _ => Option.none

/-- The comprehension `[int(v) for v in variables]`: elementwise conversion,
failing as soon as one element fails. -/
def pyIntList : List PyVal → Option (List Int)
  | [] => some []
  | v :: vs =>
    match pyToInt v, pyIntList vs with
    | some i, some is => some (i :: is)
    | _, _ => Option.none

/-- The `variables` parameter check of lines 56-71: `'all'` and `None` leave
the selection empty (`ens_sel = {}`, returned as `Option.none`); a list or
tuple is converted elementwise with `int`; any other value is converted with
`int` into a singleton list; a failing conversion raises `TypeError` (grouped
by the spec under `ConfigurationError`). -/
def checkVariables : PyVal → Except RunErr (Option (List Int))
  | .pynone => .ok Option.none
  | .str s =>
    if s = "all" then .ok Option.none
    else match pyToInt (.str s) with
      | some i => .ok (some [i])
      | Option.none => .error .configError
  | .list vs =>
    match pyIntList vs with
    | some is => .ok (some is)
    | Option.none => .error .configError
  | .tuple vs =>
    match pyIntList vs with
    | some is => .ok (some is)
    | Option.none => .error .configError
  | v =>
    match pyToInt v with
    | some i => .ok (some [i])
    | Option.none => .error .configError

/-- Whether `int` conversion of the `variables` value (elementwise for lists
and tuples) succeeds. -/
def intConvertible : PyVal → Bool
  | .list vs => (pyIntList vs).isSome
  | .tuple vs => (pyIntList vs).isSome
  | v => (pyToInt v).isSome

/-- The values of `variables` the script accepts without raising. -/
def varsAccepted (v : PyVal) : Prop :=
  v = PyVal.str "all" ∨ v = PyVal.pynone ∨ intConvertible v = true

/-- The configuration-sensitive prefix of the script: the `variables` check
of lines 56-71 followed by the validation-split strategy check of lines
130-145 (intervening steps only load data and cannot raise either
configuration error). -/
def configCheck (pyVars : PyVal) (valStrat : String) (numDates valSize : Nat)
    (oracle : Nat → Nat) :
    Except RunErr (Option (List Int) × List Int × List Int) :=
  match checkVariables pyVars with
  | .error e => .error e
  | .ok e =>
    match splitSets valStrat numDates valSize oracle with
    | .error e2 => .error e2
    | .ok tv => .ok (e, tv)

/-- Observable events of the online training loop (lines 199-227), recorded
in linearized order.  `prime c b` is the synchronous materialization of chunk
`c` on the very first iteration (lines 210-213); `readSlot c b` the read
`shared_chunk['p'].copy(), shared_chunk['t'].copy()` while training chunk `c`
(line 215); `launch c` the `process.start()` for next chunk `c` (lines
217-220); `fit l c b` the `selector.fit` call of loop `l`, chunk `c` on batch
`b` (lines 223-225); `write c b` the background worker's write of chunk `c`'s
batch into the shared dict (lines 98-99); `join` the `process.join()` barrier
(line 227). -/
inductive Ev (β : Type) where
  | prime : Nat → β → Ev β
  | readSlot : Nat → β → Ev β
  | launch : Nat → Ev β
  | fit : Nat → Nat → β → Ev β
  | write : Nat → β → Ev β
  | join : Ev β
deriving DecidableEq, Repr

/-- Scheduler state across iterations of the training loop: the
`first_chunk` flag (line 199), the handoff slot (`shared_chunk`, `none` while
never written), the linearized event trace, the accumulated `history` of fit
records `(loop, chunk, batch)` (line 225), and the list of prefetched chunk
indices in launch order. -/
structure SchedSt (β : Type) where
  firstChunk : Bool
  slot : Option β
  trace : List (Ev β)
  history : List (Nat × Nat × β)
  prefetched : List Nat
deriving DecidableEq, Repr

/-- State before the loop starts (lines 199-202). -/
def initSt (β : Type) : SchedSt β :=
  ⟨true, Option.none, [], [], []⟩

/-- One iteration of the inner loop (lines 205-227) for `(loop, chunk) = lc`.
`extract c` materializes chunk `c`'s SampleBatch (`none` when the extraction
pipeline raises); `sigma` picks the linearization point of the worker's write
inside its launch-join window (before or after the fit event) — the worker
runs concurrently with the fit, and the join barrier guarantees its effects
are applied before the iteration ends.  A failed priming aborts with the
extractor's error; a read of a never-written slot aborts with `KeyError`; a
failed background extraction leaves the slot unchanged and does *not* abort,
since `multiprocessing.Process.join()` ignores the child's exit status. -/
def schedStep (extract : Nat → Option β) (sigma : Nat → Bool) (numChunks : Nat)
    (st : SchedSt β) (lc : Nat × Nat) : Except RunErr (SchedSt β) :=
  let obtain : Except RunErr (Ev β × β) :=
    if st.firstChunk then
      match extract lc.2 with
      | some b => .ok (Ev.prime lc.2 b, b)
      | Option.none => .error .extractorError
    else
      match st.slot with
      | some b => .ok (Ev.readSlot lc.2 b, b)
      | Option.none => .error .keyError
  match obtain with
  | .error e => .error e
  | .ok (ev, b) =>
    let next := if lc.2 < numChunks - 1 then lc.2 + 1 else 0
    let wr := extract next
    let writeEvs : List (Ev β) := match wr with
      | some nb => [Ev.write next nb]
      | Option.none => []
    let mid := if sigma st.history.length then Ev.fit lc.1 lc.2 b :: writeEvs
      else writeEvs ++ [Ev.fit lc.1 lc.2 b]
    .ok { firstChunk := false,
          slot := (match wr with | some nb => some nb | Option.none => st.slot),
          trace := st.trace ++ ev :: Ev.launch next :: mid ++ [Ev.join],
          history := st.history ++ [(lc.1, lc.2, b)],
          prefetched := st.prefetched ++ [next] }

/-- Runs the loop body over the remaining iteration list, propagating
failures. -/
def schedRunAux (extract : Nat → Option β) (sigma : Nat → Bool) (numChunks : Nat) :
    List (Nat × Nat) → SchedSt β → Except RunErr (SchedSt β)
  | [], st => .ok st
  | lc :: rest, st =>
    match schedStep extract sigma numChunks st lc with
    | .ok st2 => schedRunAux extract sigma numChunks rest st2
    | .error e => .error e

/-- The iteration sequence of the two nested loops
(`for loop in range(loops): for chunk in range(len(chunks)): ...`). -/
def loopIters (loops numChunks : Nat) : List (Nat × Nat) :=
  (List.range loops).flatMap (fun l => (List.range numChunks).map (fun c => (l, c)))

/-- The whole online training loop (lines 199-227). -/
def schedRun (extract : Nat → Option β) (sigma : Nat → Bool)
    (loops numChunks : Nat) : Except RunErr (SchedSt β) :=
  schedRunAux extract sigma numChunks (loopIters loops numChunks) (initSt β)

/-- The event block of global iteration `k` of a failure-free run with
extraction function `f` over `n` chunks. -/
def blockTrace (f : Nat → β) (sigma : Nat → Bool) (n k : Nat) : List (Ev β) :=
  (if k = 0 then Ev.prime (k % n) (f (k % n)) else Ev.readSlot (k % n) (f (k % n))) ::
    Ev.launch ((k % n + 1) % n) ::
    (if sigma k then
      [Ev.fit (k / n) (k % n) (f (k % n)), Ev.write ((k % n + 1) % n) (f ((k % n + 1) % n))]
    else
      [Ev.write ((k % n + 1) % n) (f ((k % n + 1) % n)), Ev.fit (k / n) (k % n) (f (k % n))]) ++
    [Ev.join]

/-- The concatenated event blocks of iterations `a, a+1, ..., a+m-1`. -/
def traceFrom (f : Nat → β) (sigma : Nat → Bool) (n a m : Nat) : List (Ev β) :=
  (List.range' a m).flatMap (blockTrace f sigma n)

/-- Whether an event is a handoff-slot write by a background worker. -/
def isWriteEv : Ev β → Bool
  | Ev.write _ _ => true
  | _ => false

/-- The scheduler state after `k` failure-free iterations over `n` chunks. -/
def canonSt (f : Nat → β) (sigma : Nat → Bool) (n k : Nat) : SchedSt β :=
  { firstChunk := decide (k = 0),
    slot := if k = 0 then Option.none else some (f (k % n)),
    trace := traceFrom f sigma n 0 k,
    history := (List.range k).map (fun j => (j / n, j % n, f (j % n))),
    prefetched := (List.range k).map (fun j => (j + 1) % n) }

/-- The training pipeline around the loop, in source order: validation split
(lines 130-145), chunk partitioning (lines 148-152), eager materialization of
the validation SampleBatch (lines 155-156), fitting of the Imputer/Scaler on
the `scaler_fit_size` head of `train_set` (lines 189-192, `init_fit`), then
the online training loop.  `extractSet` materializes the SampleBatch of a
list of date indices (`process_chunk` after `isel`); model building
(lines 162-184) has no observable state here.  The returned tuple carries the
split, the validation batch, the `init_fit` batch and the final loop state. -/
def pipeline (extractSet : List Int → Option β) (sigma : Nat → Bool)
    (valStrat : String) (numDates valSize chunk_size scaler_fit_size loops : Nat)
    (oracle : Nat → Nat) :
    Except RunErr ((List Int × List Int) × β × β × SchedSt β) :=
  match splitSets valStrat numDates valSize oracle with
  | .error e => .error e
  | .ok (train_set, val_set) =>
    let chunks := mkChunks train_set chunk_size
    match extractSet val_set with
    | Option.none => .error .extractorError
    | some pval =>
      let fit_set := train_set.take scaler_fit_size
      match extractSet fit_set with
      | Option.none => .error .extractorError
      | some initBatch =>
        match schedRun (fun c => extractSet (chunks.getD c [])) sigma loops chunks.length with
        | .error e => .error e
        | .ok st => .ok ((train_set, val_set), pval, initBatch, st)

/-- An address-based object store.  NumPy arrays, Manager-dict values and
model instances are mutable objects with identity; `mem` maps addresses to
current values and `nextAddr` is the next fresh address. -/
structure Heap (α : Type) where
  mem : List (Nat × α)
  nextAddr : Nat
deriving DecidableEq, Repr

/-- Dereference an address. -/
def Heap.lookup (h : Heap α) (a : Nat) : Option α :=
  List.lookup a h.mem

/-- Allocate a fresh object with value `x`, returning the new heap and the
object's address. -/
def Heap.alloc (h : Heap α) (x : α) : Heap α × Nat :=
  (⟨(h.nextAddr, x) :: h.mem, h.nextAddr + 1⟩, h.nextAddr)

/-- Mutate the object at address `a` in place. -/
def Heap.update (h : Heap α) (a : Nat) (x : α) : Heap α :=
  ⟨h.mem.map (fun p => if p.1 = a then (a, x) else p), h.nextAddr⟩

/-- Every allocated address is below the allocation bound. -/
def Heap.wf (h : Heap α) : Prop := ∀ p ∈ h.mem, p.1 < h.nextAddr

instance (h : Heap α) : Decidable h.wf :=
  inferInstanceAs (Decidable (∀ p ∈ h.mem, p.1 < h.nextAddr))

/-- The two Manager-dict keys of the HandoffSlot, holding the addresses bound
to `shared_chunk['p']` and `shared_chunk['t']`. -/
structure SlotAddrs where
  p : Nat
  t : Nat
deriving DecidableEq, Repr

/-- The main flow's slot read of line 215:
`predictors, targets = (shared_chunk['p'].copy(), shared_chunk['t'].copy())`
— dereference both keys and allocate fresh copies of the two arrays,
returning the new heap and the copies' addresses (`none` models the
`KeyError` on a never-written key). -/
def readChunkCopy (h : Heap α) (s : SlotAddrs) : Option (Heap α × Nat × Nat) :=
  match h.lookup s.p, h.lookup s.t with
  | some pv, some tv =>
    let r1 := h.alloc pv
    let r2 := r1.1.alloc tv
    some (r2.1, r1.2, r2.2)
  | _, _ => Option.none

/-- The background worker's handoff of lines 98-99: `shared['p'] = p;
shared['t'] = t` — the freshly materialized arrays are installed and the dict
keys rebound to their addresses (the previously referenced arrays are not
mutated). -/
def workerPublish (h : Heap α) (npv ntv : α) : Heap α × SlotAddrs :=
  let r1 := h.alloc npv
  let r2 := r1.1.alloc ntv
  (r2.1, ⟨r1.2, r2.2⟩)

/-- One overlapped iteration on the heap: the main flow reads and copies the
slot (line 215), then the worker launched in the same iteration publishes the
next chunk's batch into the slot while the fit runs (worst case: before the
fit reads its inputs).  Returns the final heap, the fit's input addresses and
the new slot bindings. -/
def iterationOverlap (h : Heap α) (s : SlotAddrs) (npv ntv : α) :
    Option (Heap α × Nat × Nat × SlotAddrs) :=
  match readChunkCopy h s with
  | some (h1, pa, ta) =>
    let r := workerPublish h1 npv ntv
    some (r.1, pa, ta, r.2)
  | Option.none => Option.none

/-- A model instance as `save_model` (util.py lines 94-108) sees it: the
`model` attribute holding the native Keras model (abstracted to its
serializable content) and the rest of the instance state. -/
structure SelectorObj where
  model : Option Nat
  attrs : Nat
deriving DecidableEq, Repr

/-- The two files written by `save_model`: the native `.keras` file and the
pickled instance. -/
structure SavedFiles where
  kerasFile : Nat
  pklObj : SelectorObj
deriving DecidableEq, Repr

/-- Errors of `save_model`: `model.model.save` on a `None` or unbound model
attribute. -/
inductive SaveErr where
  | attributeError
deriving DecidableEq, Repr

/-- util.py lines 94-108: `model.model.save(file.keras)`, then
`model_copy = deepcopy(model)`, `model_copy.model = None`, then
`pickle.dump(model_copy, file.pkl)`.  The deepcopy allocates a fresh object
with the same value; the `None`-assignment mutates only the copy.  Returns
the final heap, the copy's address and the two written files. -/
def save_model (h : Heap SelectorObj) (a : Nat) :
    Except SaveErr (Heap SelectorObj × Nat × SavedFiles) :=
  match h.lookup a with
  | Option.none => .error .attributeError
  | some obj =>
    match obj.model with
    | Option.none => .error .attributeError
    | some m =>
      let r := h.alloc obj
      let h2 := r.1.update r.2 { obj with model := Option.none }
      .ok (h2, r.2, ⟨m, { obj with model := Option.none }⟩)

theorem pyRange_length (a b : Int) : (pyRange a b).length = (b - a).toNat := by
  rw [pyRange, List.length_map, List.length_range]

theorem mem_pyRange {a b x : Int} : x ∈ pyRange a b ↔ a ≤ x ∧ x < b := by
  simp only [pyRange, List.mem_map, List.mem_range]
  constructor
  · rintro ⟨i, hi, rfl⟩
    omega
  · rintro ⟨h1, h2⟩
    exact ⟨(x - a).toNat, by omega, by omega⟩

theorem pyRange_nodup (a b : Int) : (pyRange a b).Nodup := by
  refine List.Nodup.map ?_ (List.nodup_range _)
  intro i j h
  have h2 : a + (i : Int) = a + (j : Int) := h
  omega

theorem drawVal_ok (oracle : Nat → Nat) :
    ∀ (m j : Nat) (train_set val_set : List Int), m ≤ train_set.length →
      ∃ t v, drawVal oracle m j train_set val_set = .ok (t, v) ∧
        t.length = train_set.length - m ∧ v.length = val_set.length + m ∧
        List.Perm (t ++ v) (train_set ++ val_set) := by
  intro m
  induction m with
  | zero =>
    intro j train_set val_set _
    exact ⟨train_set, val_set, rfl, by omega, by omega, List.Perm.refl _⟩
  | succ m ih =>
    intro j train_set val_set hm
    have hne : ¬ train_set.length = 0 := by omega
    have hpos : 0 < train_set.length := by omega
    set i := train_set.get ⟨oracle j % train_set.length, Nat.mod_lt _ hpos⟩ with hidef
    have himem : i ∈ train_set := train_set.get_mem _ _
    have hlen : (train_set.erase i).length = train_set.length - 1 :=
      List.length_erase_of_mem himem
    obtain ⟨t, v, heq, hlt, hlv, hperm⟩ :=
      ih (j + 1) (train_set.erase i) (val_set ++ [i]) (by omega)
    refine ⟨t, v, ?_, by omega, by simp at hlv; omega, ?_⟩
    · simp only [drawVal, dif_neg hne]
      exact heq
    · have h1 : List.Perm (train_set ++ val_set) (i :: (train_set.erase i ++ val_set)) :=
        (List.perm_cons_erase himem).append_right val_set
      have h2 : List.Perm (train_set.erase i ++ (val_set ++ [i]))
          (i :: (train_set.erase i ++ val_set)) := by
        rw [← List.append_assoc]
        exact List.perm_append_singleton _ _
      exact hperm.trans (h2.trans h1.symm)

theorem drawVal_err (oracle : Nat → Nat) :
    ∀ (m j : Nat) (train_set val_set : List Int), train_set.length < m →
      drawVal oracle m j train_set val_set = .error .indexError := by
  intro m
  induction m with
  | zero => intro j t v h; omega
  | succ m ih =>
    intro j t v h
    by_cases h0 : t.length = 0
    · simp only [drawVal, dif_pos h0]
    · simp only [drawVal, dif_neg h0]
      refine ih (j + 1) _ _ ?_
      rw [List.length_erase_of_mem (t.get_mem _ _)]
      omega

theorem drawVal_not_config (oracle : Nat → Nat) :
    ∀ (m j : Nat) (train_set val_set : List Int),
      (∃ p, drawVal oracle m j train_set val_set = .ok p) ∨
        drawVal oracle m j train_set val_set = .error .indexError := by
  intro m
  induction m with
  | zero => intro j t v; exact Or.inl ⟨(t, v), rfl⟩
  | succ m ih =>
    intro j t v
    by_cases h0 : t.length = 0
    · simp only [drawVal, dif_pos h0]
      exact Or.inr trivial
    · simp only [drawVal, dif_neg h0]
      exact ih (j + 1) _ _

theorem chunksFrom_stop (train_set : List Int) (chunk_size : Nat) :
    ∀ (fuel index : Nat), train_set.length ≤ index →
      chunksFrom train_set chunk_size fuel index = [] := by
  intro fuel index h
  cases fuel with
  | zero => rfl
  | succ fuel =>
    simp only [chunksFrom]
    rw [if_neg (show ¬ index < train_set.length by omega)]

theorem chunksFrom_flatten (train_set : List Int) (chunk_size : Nat) :
    ∀ (fuel index : Nat), train_set.length - index ≤ fuel * chunk_size →
      (chunksFrom train_set chunk_size fuel index).flatten = train_set.drop index := by
  intro fuel
  induction fuel with
  | zero =>
    intro index h
    have : train_set.length ≤ index := by omega
    rw [chunksFrom_stop _ _ _ _ this, List.drop_eq_nil_of_le this]
    rfl
  | succ fuel ih =>
    intro index h
    have hmul : (fuel + 1) * chunk_size = fuel * chunk_size + chunk_size := by ring
    by_cases hidx : index < train_set.length
    · simp only [chunksFrom, if_pos hidx, List.flatten_cons]
      rw [ih (index + chunk_size) (by omega)]
      rw [← List.drop_drop, List.take_append_drop]
    · have hge : train_set.length ≤ index := by omega
      rw [chunksFrom_stop _ _ _ _ hge, List.drop_eq_nil_of_le hge]
      rfl

theorem sub_add_mod_aux (L i c : Nat) (h : i + c ≤ L) :
    (L - (i + c)) % c = (L - i) % c := by
  have hr : L - i = c + (L - (i + c)) := by omega
  rw [hr, Nat.add_mod_left]

theorem chunksFrom_lengths (train_set : List Int) (chunk_size : Nat) :
    ∀ (fuel index : Nat), train_set.length - index ≤ fuel * chunk_size →
      (∀ ch ∈ (chunksFrom train_set chunk_size fuel index).dropLast, ch.length = chunk_size) ∧
      (index < train_set.length →
        ∃ lastc, (chunksFrom train_set chunk_size fuel index).getLast? = some lastc ∧
          lastc.length = (if (train_set.length - index) % chunk_size = 0 then chunk_size
            else (train_set.length - index) % chunk_size)) := by
  intro fuel
  induction fuel with
  | zero =>
    intro index h
    have hge : train_set.length ≤ index := by omega
    rw [chunksFrom_stop _ _ _ _ hge]
    exact ⟨by intro ch hch; simp at hch, by intro hlt; omega⟩
  | succ fuel ih =>
    intro index h
    have hmul : (fuel + 1) * chunk_size = fuel * chunk_size + chunk_size := by ring
    by_cases hidx : index < train_set.length
    · simp only [chunksFrom, if_pos hidx]
      by_cases h2 : index + chunk_size < train_set.length
      · obtain ⟨ihdrop, ihlast⟩ := ih (index + chunk_size) (by omega)
        obtain ⟨lastc, hlast, hlastlen⟩ := ihlast h2
        have hne : chunksFrom train_set chunk_size fuel (index + chunk_size) ≠ [] := by
          intro hnil
          rw [hnil] at hlast
          simp at hlast
        have hheadlen : ((train_set.drop index).take chunk_size).length = chunk_size := by
          rw [List.length_take, List.length_drop]
          omega
        constructor
        · intro ch hch
          rw [List.dropLast_cons_of_ne_nil hne] at hch
          rcases List.mem_cons.mp hch with h3 | h3
          · rw [h3]; exact hheadlen
          · exact ihdrop ch h3
        · intro _
          refine ⟨lastc, ?_, ?_⟩
          · obtain ⟨hd2, tl2, hrest2⟩ := List.exists_cons_of_ne_nil hne
            rw [hrest2, List.getLast?_cons_cons, ← hrest2]
            exact hlast
          · rw [hlastlen, sub_add_mod_aux _ _ _ (by omega)]
      · have hrest : chunksFrom train_set chunk_size fuel (index + chunk_size) = [] :=
          chunksFrom_stop _ _ _ _ (by omega)
        rw [hrest]
        have hlen : ((train_set.drop index).take chunk_size).length =
            train_set.length - index := by
          rw [List.length_take, List.length_drop]
          omega
        refine ⟨by intro ch hch; simp at hch,
          fun _ => ⟨(train_set.drop index).take chunk_size, by simp, ?_⟩⟩
        rw [hlen]
        rcases Nat.lt_or_ge (train_set.length - index) chunk_size with hlt | hge2
        · rw [Nat.mod_eq_of_lt hlt, if_neg (by omega)]
        · have heq : train_set.length - index = chunk_size := by omega
          rw [heq, Nat.mod_self, if_pos rfl]
    · have hge : train_set.length ≤ index := by omega
      rw [chunksFrom_stop _ _ _ _ hge]
      exact ⟨by intro ch hch; simp at hch, by intro hlt; omega⟩

/-- C4: for every `num_dates` and `val_size` with `val_size <= num_dates` and
every strategy in `{first, last, random}`, the splitter returns
`(train_set, val_set)` with `len(val_set) = val_size`,
`len(train_set) + len(val_set) = num_dates`, the two sets disjoint, their
union equal to `range(num_dates)`, and for `random` the validation set sorted
strictly ascending (hence without duplicates). -/
theorem c4_validation_split (strat : String) (numDates valSize : Nat)
    (oracle : Nat → Nat)
    (hstrat : strat = "first" ∨ strat = "last" ∨ strat = "random")
    (hsize : valSize ≤ numDates) :
    ∃ train_set val_set,
      splitSets strat numDates valSize oracle = .ok (train_set, val_set) ∧
      val_set.length = valSize ∧
      train_set.length + val_set.length = numDates ∧
      (∀ x, x ∈ train_set → x ∉ val_set) ∧
      (∀ x : Int, (x ∈ train_set ∨ x ∈ val_set) ↔ x ∈ pyRange 0 numDates) ∧
      (strat = "random" → val_set.Sorted (· < ·)) := by
  rcases hstrat with h | h | h <;> subst h
  · refine ⟨pyRange valSize numDates, pyRange 0 valSize, rfl, ?_, ?_, ?_, ?_,
      fun h => absurd h (by decide)⟩
    · rw [pyRange_length]; omega
    · rw [pyRange_length, pyRange_length]; omega
    · intro x hx hv
      rw [mem_pyRange] at hx hv
      omega
    · intro x
      simp only [mem_pyRange]
      omega
  · refine ⟨pyRange 0 ((numDates : Int) - valSize),
      pyRange ((numDates : Int) - valSize) numDates, rfl, ?_, ?_, ?_, ?_,
      fun h => absurd h (by decide)⟩
    · rw [pyRange_length]; omega
    · rw [pyRange_length, pyRange_length]; omega
    · intro x hx hv
      rw [mem_pyRange] at hx hv
      omega
    · intro x
      simp only [mem_pyRange]
      omega
  · have hlen : (pyRange 0 numDates).length = numDates := by
      rw [pyRange_length]; omega
    obtain ⟨t, v, heq, hlt, hlv, hperm⟩ :=
      drawVal_ok oracle valSize 0 (pyRange 0 numDates) [] (by omega)
    have hsorted : (List.insertionSort (· ≤ ·) v).Sorted (· ≤ ·) :=
      List.sorted_insertionSort _ _
    have hpermSort : List.Perm (List.insertionSort (· ≤ ·) v) v :=
      List.perm_insertionSort _ _
    have hperm2 : List.Perm (t ++ List.insertionSort (· ≤ ·) v) (pyRange 0 numDates) := by
      have h1 : List.Perm (t ++ List.insertionSort (· ≤ ·) v) (t ++ v) :=
        hpermSort.append_left t
      have h2 : List.Perm (t ++ v) (pyRange 0 numDates) := by
        have := hperm
        rwa [List.append_nil] at this
      exact h1.trans h2
    have hnd : (t ++ List.insertionSort (· ≤ ·) v).Nodup :=
      hperm2.nodup_iff.mpr (pyRange_nodup _ _)
    obtain ⟨hndt, hndv, hdisj⟩ := List.nodup_append.mp hnd
    refine ⟨t, List.insertionSort (· ≤ ·) v, ?_, ?_, ?_, ?_, ?_, fun _ => ?_⟩
    · simp only [splitSets]
      rw [if_neg (by decide), if_neg (by decide), if_pos trivial, heq]
    · rw [hpermSort.length_eq, hlv]
      simp
    · rw [hpermSort.length_eq, hlv, hlt]
      simp at hlv ⊢
      omega
    · exact fun x hx hv => hdisj hx hv
    · intro x
      rw [← hperm2.mem_iff, List.mem_append]
    · exact hsorted.lt_of_le hndv

/-- Witness for C4 at `num_dates = 5`, `val_size = 2`, strategy `random`. -/
theorem c4_validation_split_witness :
    ∃ train_set val_set,
      splitSets "random" 5 2 (fun _ => 0) = .ok (train_set, val_set) ∧
      val_set.length = 2 ∧
      train_set.length + val_set.length = 5 ∧
      (∀ x, x ∈ train_set → x ∉ val_set) ∧
      (∀ x : Int, (x ∈ train_set ∨ x ∈ val_set) ↔ x ∈ pyRange 0 5) ∧
      ("random" = "random" → val_set.Sorted (· < ·)) :=
  c4_validation_split "random" 5 2 (fun _ => 0) (Or.inr (Or.inr rfl)) (by decide)

/-- C5: for every `train_set` and `chunk_size >= 1` the chunk partition
concatenates back to `train_set`; every chunk except possibly the last has
length `chunk_size`, and the last has length `len(train_set) mod chunk_size`
(or `chunk_size` when evenly divisible); and scenario A (`num_dates = 20`,
`val_size = 5`, `val = 'first'`, `chunk_size = 5`) yields
`val_set = [0..4]`, `train_set = [5..19]` and chunks
`[[5..9], [10..14], [15..19]]`. -/
theorem c5_chunk_partition :
    (∀ (train_set : List Int) (chunk_size : Nat), 1 ≤ chunk_size →
      (mkChunks train_set chunk_size).flatten = train_set ∧
      (∀ ch ∈ (mkChunks train_set chunk_size).dropLast, ch.length = chunk_size) ∧
      (train_set ≠ [] →
        ∃ lastc, (mkChunks train_set chunk_size).getLast? = some lastc ∧
          lastc.length = (if train_set.length % chunk_size = 0 then chunk_size
            else train_set.length % chunk_size))) ∧
    (splitSets "first" 20 5 (fun _ => 0) =
        .ok ([5, 6, 7, 8, 9, 10, 11, 12, 13, 14, 15, 16, 17, 18, 19], [0, 1, 2, 3, 4]) ∧
      mkChunks [5, 6, 7, 8, 9, 10, 11, 12, 13, 14, 15, 16, 17, 18, 19] 5 =
        [[5, 6, 7, 8, 9], [10, 11, 12, 13, 14], [15, 16, 17, 18, 19]]) := by
  constructor
  · intro train_set chunk_size hc
    have hfuel : train_set.length - 0 ≤ train_set.length * chunk_size := by
      calc train_set.length - 0 = train_set.length * 1 := by omega
        _ ≤ train_set.length * chunk_size := Nat.mul_le_mul_left _ hc
    obtain ⟨hdrop, hlast⟩ := chunksFrom_lengths train_set chunk_size _ 0 hfuel
    refine ⟨?_, hdrop, ?_⟩
    · rw [mkChunks, chunksFrom_flatten train_set chunk_size _ 0 hfuel, List.drop_zero]
    · intro hne
      have hpos : 0 < train_set.length := List.length_pos.mpr hne
      obtain ⟨lastc, h1, h2⟩ := hlast hpos
      exact ⟨lastc, h1, by simpa using h2⟩
  · exact ⟨by decide, by decide⟩

/-- Witness for C5's universally quantified part at a concrete list and
chunk size. -/
theorem c5_chunk_partition_witness :
    (mkChunks [5, 6, 7] 2).flatten = [5, 6, 7] ∧
    (∀ ch ∈ (mkChunks [5, 6, 7] 2).dropLast, ch.length = 2) ∧
    (([5, 6, 7] : List Int) ≠ [] →
      ∃ lastc, (mkChunks [5, 6, 7] 2).getLast? = some lastc ∧
        lastc.length = (if ([5, 6, 7] : List Int).length % 2 = 0 then 2
          else ([5, 6, 7] : List Int).length % 2)) :=
  c5_chunk_partition.1 [5, 6, 7] 2 (by decide)

/-- C9: with `val_size > num_dates` the `random` strategy aborts with an
`IndexError` (`random.choice` on the exhausted candidate list), while `first`
and `last` return without error a pair whose validation set leaves
`range(num_dates)` (so the partition postcondition is violated). -/
theorem c9_oversized_val_size (numDates valSize : Nat) (oracle : Nat → Nat)
    (h : numDates < valSize) :
    splitSets "random" numDates valSize oracle = .error .indexError ∧
    (∃ t v, splitSets "first" numDates valSize oracle = .ok (t, v) ∧
      ∃ x ∈ v, x ∉ pyRange 0 numDates) ∧
    (∃ t v, splitSets "last" numDates valSize oracle = .ok (t, v) ∧
      ∃ x ∈ v, x ∉ pyRange 0 numDates) := by
  refine ⟨?_, ?_, ?_⟩
  · have herr := drawVal_err oracle valSize 0 (pyRange 0 numDates) [] (by
      rw [pyRange_length]; omega)
    simp only [splitSets]
    rw [if_neg (by decide), if_neg (by decide), if_pos trivial, herr]
  · refine ⟨pyRange valSize numDates, pyRange 0 valSize, rfl,
      (numDates : Int), ?_, ?_⟩
    · rw [mem_pyRange]; omega
    · rw [mem_pyRange]; omega
  · refine ⟨pyRange 0 ((numDates : Int) - valSize),
      pyRange ((numDates : Int) - valSize) numDates, rfl,
      (numDates : Int) - valSize, ?_, ?_⟩
    · rw [mem_pyRange]; omega
    · rw [mem_pyRange]; omega

/-- Witness for C9 at `num_dates = 2`, `val_size = 3`. -/
theorem c9_oversized_val_size_witness :
    splitSets "random" 2 3 (fun _ => 0) = .error .indexError ∧
    (∃ t v, splitSets "first" 2 3 (fun _ => 0) = .ok (t, v) ∧
      ∃ x ∈ v, x ∉ pyRange 0 2) ∧
    (∃ t v, splitSets "last" 2 3 (fun _ => 0) = .ok (t, v) ∧
      ∃ x ∈ v, x ∉ pyRange 0 2) :=
  c9_oversized_val_size 2 3 (fun _ => 0) (by decide)

theorem checkVariables_cases (v : PyVal) :
    (∃ r, checkVariables v = .ok r) ∨ checkVariables v = .error .configError := by
  cases v with
  | pynone => exact Or.inl ⟨Option.none, rfl⟩
  | str s =>
    by_cases hall : s = "all"
    · exact Or.inl ⟨Option.none, by simp [checkVariables, hall]⟩
    · cases hi : pyToInt (.str s) with
      | none => exact Or.inr (by simp [checkVariables, hall, hi])
      | some i => exact Or.inl ⟨some [i], by simp [checkVariables, hall, hi]⟩
  | int n => exact Or.inl ⟨some [n], rfl⟩
  | list vs =>
    cases hm : pyIntList vs with
    | none => exact Or.inr (by simp [checkVariables, hm])
    | some is => exact Or.inl ⟨some is, by simp [checkVariables, hm]⟩
  | tuple vs =>
    cases hm : pyIntList vs with
    | none => exact Or.inr (by simp [checkVariables, hm])
    | some is => exact Or.inl ⟨some is, by simp [checkVariables, hm]⟩

theorem checkVariables_err (v : PyVal) :
    checkVariables v = .error .configError ↔ ¬ varsAccepted v := by
  cases v with
  | pynone =>
    simp only [checkVariables, varsAccepted]
    constructor
    · intro h; exact absurd h (by simp)
    · intro h; exact absurd (Or.inr (Or.inl trivial)) h
  | str s =>
    by_cases hall : s = "all"
    · subst hall
      simp only [checkVariables, varsAccepted, if_pos rfl]
      constructor
      · intro h; exact absurd h (by simp)
      · intro h; exact absurd (Or.inl trivial) h
    · have hne1 : PyVal.str s ≠ PyVal.str "all" := by
        intro h; cases h; exact hall rfl
      have hne2 : PyVal.str s ≠ PyVal.pynone := by intro h; cases h
      cases hi : pyToInt (.str s) with
      | none =>
        simp [checkVariables, varsAccepted, hall, hi, intConvertible, hne1, hne2]
      | some i =>
        simp [checkVariables, varsAccepted, hall, hi, intConvertible, hne1, hne2]
  | int n =>
    have hne1 : PyVal.int n ≠ PyVal.str "all" := by intro h; cases h
    have hne2 : PyVal.int n ≠ PyVal.pynone := by intro h; cases h
    simp [checkVariables, varsAccepted, intConvertible, pyToInt, hne1, hne2]
  | list vs =>
    have hne1 : PyVal.list vs ≠ PyVal.str "all" := by intro h; cases h
    have hne2 : PyVal.list vs ≠ PyVal.pynone := by intro h; cases h
    cases hm : pyIntList vs with
    | none => simp [checkVariables, varsAccepted, hm, intConvertible, hne1, hne2]
    | some is => simp [checkVariables, varsAccepted, hm, intConvertible, hne1, hne2]
  | tuple vs =>
    have hne1 : PyVal.tuple vs ≠ PyVal.str "all" := by intro h; cases h
    have hne2 : PyVal.tuple vs ≠ PyVal.pynone := by intro h; cases h
    cases hm : pyIntList vs with
    | none => simp [checkVariables, varsAccepted, hm, intConvertible, hne1, hne2]
    | some is => simp [checkVariables, varsAccepted, hm, intConvertible, hne1, hne2]

theorem splitSets_recognized (strat : String) (numDates valSize : Nat)
    (oracle : Nat → Nat)
    (h : strat = "first" ∨ strat = "last" ∨ strat = "random") :
    splitSets strat numDates valSize oracle ≠ .error .configError := by
  rcases h with h | h | h <;> subst h
  · intro hcon
    simp [splitSets] at hcon
  · intro hcon
    simp [splitSets] at hcon
  · intro hcon
    simp only [splitSets] at hcon
    rw [if_neg (by decide), if_neg (by decide), if_pos trivial] at hcon
    rcases drawVal_not_config oracle valSize 0 (pyRange 0 numDates) [] with ⟨⟨t, v⟩, hp⟩ | hp <;>
      rw [hp] at hcon <;> simp at hcon

theorem splitSets_unrecognized (strat : String) (numDates valSize : Nat)
    (oracle : Nat → Nat) (h1 : strat ≠ "first") (h2 : strat ≠ "last")
    (h3 : strat ≠ "random") :
    splitSets strat numDates valSize oracle = .error .configError := by
  simp only [splitSets]
  rw [if_neg h1, if_neg h2, if_neg h3]

/-- C7 (amended): the configuration-sensitive prefix fails with a
configuration error exactly when the `variables` value is not accepted
(neither `'all'` nor `None` nor convertible to a list of integers) or the
validation-strategy name is not one of `first`, `last`, `random`; in
particular for every recognized strategy and accepted `variables` no
configuration error is raised. -/
theorem c7_configuration_errors (pyVars : PyVal) (valStrat : String)
    (numDates valSize : Nat) (oracle : Nat → Nat) :
    configCheck pyVars valStrat numDates valSize oracle = .error .configError ↔
      (¬ varsAccepted pyVars ∨
        ¬ (valStrat = "first" ∨ valStrat = "last" ∨ valStrat = "random")) := by
  constructor
  · intro h
    rcases checkVariables_cases pyVars with ⟨r, hr⟩ | hr
    · right
      intro hrec
      rw [configCheck, hr] at h
      cases hs : splitSets valStrat numDates valSize oracle with
      | ok tv => rw [hs] at h; simp at h
      | error e2 =>
        rw [hs] at h
        simp only [Except.error.injEq] at h
        rw [h] at hs
        exact splitSets_recognized valStrat numDates valSize oracle hrec hs
    · exact Or.inl ((checkVariables_err pyVars).mp hr)
  · intro h
    rcases h with h | h
    · rw [configCheck, (checkVariables_err pyVars).mpr h]
    · rcases checkVariables_cases pyVars with ⟨r, hr⟩ | hr
      · rw [configCheck, hr]
        push_neg at h
        rw [splitSets_unrecognized valStrat numDates valSize oracle h.1 h.2.1 h.2.2]
      · rw [configCheck, hr]

/-- Counterexample to C7 as frozen: `variables = None` is neither `'all'` nor
convertible to a list of integers, yet with a recognized strategy the run
raises no configuration error (line 57 accepts `variables is None`). -/
theorem c7_counterexample :
    configCheck PyVal.pynone "first" 5 2 (fun _ => 0) ≠ .error .configError ∧
    PyVal.pynone ≠ PyVal.str "all" ∧
    intConvertible PyVal.pynone = false :=
  ⟨by decide, fun h => PyVal.noConfusion h, rfl⟩

theorem mod_succ_mod (k n : Nat) : (k + 1) % n = (k % n + 1) % n :=
  (Nat.mod_modEq k n).symm.add_right 1

theorem next_if_eq (n k : Nat) (hn : 1 ≤ n) :
    (if k % n < n - 1 then k % n + 1 else 0) = (k + 1) % n := by
  have hc : k % n < n := Nat.mod_lt _ hn
  have hm : (k + 1) % n = (k % n + 1) % n := mod_succ_mod k n
  by_cases h : k % n < n - 1
  · rw [if_pos h, hm, Nat.mod_eq_of_lt (show k % n + 1 < n by omega)]
  · rw [if_neg h, hm]
    have hn1 : k % n + 1 = n := by omega
    rw [hn1, Nat.mod_self]

theorem blockTrace_length (f : Nat → β) (sigma : Nat → Bool) (n k : Nat) :
    (blockTrace f sigma n k).length = 5 := by
  rw [blockTrace]
  by_cases h : sigma k <;> simp [h]

theorem traceFrom_concat (f : Nat → β) (sigma : Nat → Bool) (n k : Nat) :
    traceFrom f sigma n 0 (k + 1) = traceFrom f sigma n 0 k ++ blockTrace f sigma n k := by
  rw [traceFrom, traceFrom, List.range'_concat, List.flatMap_append]
  simp

theorem canonSt_zero (f : Nat → β) (sigma : Nat → Bool) (n : Nat) :
    canonSt f sigma n 0 = initSt β := by
  simp [canonSt, initSt, traceFrom]

theorem schedStep_canon (f : Nat → β) (sigma : Nat → Bool) (n : Nat) (hn : 1 ≤ n)
    (k : Nat) :
    schedStep (fun c => some (f c)) sigma n (canonSt f sigma n k) (k / n, k % n) =
      .ok (canonSt f sigma n (k + 1)) := by
  have htr := traceFrom_concat f sigma n k
  by_cases hk : k = 0
  · subst hk
    simp only [schedStep, canonSt, next_if_eq n 0 hn]
    rw [if_pos (show decide True = true from rfl)]
    simp only [Except.ok.injEq, SchedSt.mk.injEq]
    refine ⟨by simp, by simp, ?_, by simp [List.range_succ], by simp [List.range_succ]⟩
    rw [htr, blockTrace, ← mod_succ_mod 0 n]
    simp
  · simp only [schedStep, canonSt, next_if_eq n k hn]
    rw [if_neg (show ¬ decide (k = 0) = true by rw [decide_eq_true_eq]; exact hk),
      if_neg (show ¬ k = 0 from hk)]
    simp only [Except.ok.injEq, SchedSt.mk.injEq]
    refine ⟨by simp, by rw [if_neg (show ¬ k + 1 = 0 by omega)], ?_,
      by simp [List.range_succ], by simp [List.range_succ]⟩
    rw [htr, blockTrace, if_neg hk, ← mod_succ_mod k n]
    simp
theorem schedRunAux_canon (f : Nat → β) (sigma : Nat → Bool) (n : Nat) (hn : 1 ≤ n) :
    ∀ (m a : Nat),
      schedRunAux (fun c => some (f c)) sigma n
        ((List.range' a m).map (fun k => (k / n, k % n))) (canonSt f sigma n a) =
        .ok (canonSt f sigma n (a + m)) := by
  intro m
  induction m with
  | zero => intro a; simp [schedRunAux]
  | succ m ih =>
    intro a
    simp only [List.range'_succ, List.map_cons, schedRunAux]
    rw [schedStep_canon f sigma n hn a]
    rw [show a + (m + 1) = a + 1 + m by omega]
    exact ih (a + 1)

theorem loopIters_eq (loops n : Nat) :
    loopIters loops n = (List.range (loops * n)).map (fun k => (k / n, k % n)) := by
  induction loops with
  | zero => simp [loopIters]
  | succ L ih =>
    rw [loopIters, List.range_succ, List.flatMap_append, ← loopIters, ih]
    rw [show (L + 1) * n = L * n + n by ring, List.range_add, List.map_append]
    congr 1
    simp only [List.flatMap_cons, List.flatMap_nil, List.append_nil, List.map_map]
    apply List.map_congr_left
    intro c hc
    have hcn : c < n := List.mem_range.mp hc
    have hdiv : (L * n + c) / n = L := by
      rw [Nat.mul_comm L n, Nat.mul_add_div (by omega), Nat.div_eq_of_lt hcn]
      rfl
    have hmod : (L * n + c) % n = c := by
      rw [Nat.mul_comm L n, Nat.mul_add_mod, Nat.mod_eq_of_lt hcn]
    simp [hdiv, hmod]

theorem schedRun_total (f : Nat → β) (sigma : Nat → Bool) (loops n : Nat) (hn : 1 ≤ n) :
    schedRun (fun c => some (f c)) sigma loops n = .ok (canonSt f sigma n (loops * n)) := by
  rw [schedRun, loopIters_eq, ← canonSt_zero f sigma n, List.range_eq_range']
  have h := schedRunAux_canon f sigma n hn (loops * n) 0
  simpa using h

theorem traceFrom_getElem (f : Nat → β) (sigma : Nat → Bool) (n : Nat) :
    ∀ (k m a i : Nat), k < m → i < 5 →
      (traceFrom f sigma n a m)[5 * k + i]? = (blockTrace f sigma n (a + k))[i]? := by
  intro k
  induction k with
  | zero =>
    intro m a i hk hi
    obtain ⟨m2, rfl⟩ : ∃ m2, m = m2 + 1 := ⟨m - 1, by omega⟩
    rw [traceFrom, List.range'_succ, List.flatMap_cons,
      show 5 * 0 + i = i by omega, show a + 0 = a by omega]
    rw [List.getElem?_append_left (show i < (blockTrace f sigma n a).length by
      rw [blockTrace_length]; omega)]
  | succ k ih =>
    intro m a i hk hi
    obtain ⟨m2, rfl⟩ : ∃ m2, m = m2 + 1 := ⟨m - 1, by omega⟩
    rw [traceFrom, List.range'_succ, List.flatMap_cons]
    rw [List.getElem?_append_right (show (blockTrace f sigma n a).length ≤ 5 * (k + 1) + i by
      rw [blockTrace_length]; omega)]
    rw [blockTrace_length, show 5 * (k + 1) + i - 5 = 5 * k + i by omega]
    have hih := ih m2 (a + 1) i (by omega) hi
    rw [traceFrom] at hih
    rw [hih, show a + 1 + k = a + (k + 1) by omega]

theorem blockTrace_getObtain (f : Nat → β) (sigma : Nat → Bool) (n k : Nat) :
    (blockTrace f sigma n k)[0]? =
      some (if k = 0 then Ev.prime (k % n) (f (k % n))
        else Ev.readSlot (k % n) (f (k % n))) := by
  by_cases h : k = 0 <;> simp [blockTrace, h]

theorem blockTrace_getLaunch (f : Nat → β) (sigma : Nat → Bool) (n k : Nat) :
    (blockTrace f sigma n k)[1]? = some (Ev.launch ((k % n + 1) % n)) := by
  by_cases h : sigma k <;> simp [blockTrace, h]

theorem blockTrace_getWrite (f : Nat → β) (sigma : Nat → Bool) (n k : Nat) :
    (blockTrace f sigma n k)[if sigma k then 3 else 2]? =
      some (Ev.write ((k % n + 1) % n) (f ((k % n + 1) % n))) := by
  rw [blockTrace]
  by_cases h : sigma k <;> simp [h]

theorem blockTrace_getFit (f : Nat → β) (sigma : Nat → Bool) (n k : Nat) :
    (blockTrace f sigma n k)[if sigma k then 2 else 3]? =
      some (Ev.fit (k / n) (k % n) (f (k % n))) := by
  rw [blockTrace]
  by_cases h : sigma k <;> simp [h]

/-- C1: in every failure-free run with `loops >= 1` and a non-empty chunk
list, the very first iteration's batch is obtained by the synchronous priming
materialization of chunk 0 (the trace's first event); on every iteration `k`
the scheduler, after obtaining the current batch (position `5k`) and before
the fit event, launches a background worker (position `5k + 1`) for chunk
index `(k % n + 1) mod n = (k + 1) mod n`; consequently for 3 chunks and
`loops = 2` the prefetched chunk indices are `1,2,0,1,2,0` (six prefetches)
and exactly one fit record exists per `(loop, chunk)` pair in chunk order,
6 in total. -/
theorem c1_prefetch_schedule :
    (∀ (β : Type) (f : Nat → β) (sigma : Nat → Bool) (loops n : Nat),
      1 ≤ loops → 1 ≤ n →
      ∃ st : SchedSt β, schedRun (fun c => some (f c)) sigma loops n = .ok st ∧
        st.trace[0]? = some (Ev.prime 0 (f 0)) ∧
        (∀ k, k < loops * n →
          st.trace[5 * k]? = some (if k = 0 then Ev.prime (k % n) (f (k % n))
            else Ev.readSlot (k % n) (f (k % n))) ∧
          st.trace[5 * k + 1]? = some (Ev.launch ((k + 1) % n)) ∧
          st.trace[5 * k + (if sigma k then 2 else 3)]? =
            some (Ev.fit (k / n) (k % n) (f (k % n)))) ∧
        st.prefetched = (List.range (loops * n)).map (fun k => (k + 1) % n) ∧
        st.history = (List.range (loops * n)).map (fun k => (k / n, k % n, f (k % n)))) ∧
    (∀ (β : Type) (f : Nat → β) (sigma : Nat → Bool),
      ∃ st : SchedSt β, schedRun (fun c => some (f c)) sigma 2 3 = .ok st ∧
        st.prefetched = [1, 2, 0, 1, 2, 0] ∧
        st.history = [(0, 0, f 0), (0, 1, f 1), (0, 2, f 2),
          (1, 0, f 0), (1, 1, f 1), (1, 2, f 2)]) := by
  constructor
  · intro β f sigma loops n hl hn
    have hK : 0 < loops * n := Nat.mul_pos (by omega) (by omega)
    refine ⟨canonSt f sigma n (loops * n), schedRun_total f sigma loops n hn,
      ?_, ?_, rfl, rfl⟩
    · have h0 := traceFrom_getElem f sigma n 0 (loops * n) 0 0 hK (by omega)
      rw [blockTrace_getObtain] at h0
      norm_num at h0
      exact h0
    · intro k hk
      refine ⟨?_, ?_, ?_⟩
      · have h := traceFrom_getElem f sigma n k (loops * n) 0 0 hk (by omega)
        rw [blockTrace_getObtain] at h
        norm_num at h
        exact h
      · have h := traceFrom_getElem f sigma n k (loops * n) 0 1 hk (by omega)
        rw [blockTrace_getLaunch] at h
        norm_num [← mod_succ_mod] at h
        exact h
      · have h := traceFrom_getElem f sigma n k (loops * n) 0
          (if sigma k then 2 else 3) hk (by by_cases hs : sigma k <;> simp [hs])
        rw [Nat.zero_add] at h
        rw [blockTrace_getFit] at h
        exact h
  · intro β f sigma
    refine ⟨canonSt f sigma 3 (2 * 3), schedRun_total f sigma 2 3 (by omega), ?_, ?_⟩
    · show (List.range (2 * 3)).map (fun j => (j + 1) % 3) = _
      decide
    · show (List.range (2 * 3)).map (fun j => (j / 3, j % 3, f (j % 3))) = _
      rw [show (2 * 3) = 6 from rfl, show List.range 6 = [0, 1, 2, 3, 4, 5] from rfl]
      simp

/-- Witness for C1 with `f = id`, the write linearized before the fit,
`loops = 2` and 3 chunks. -/
theorem c1_prefetch_schedule_witness :
    ∃ st : SchedSt Nat, schedRun (fun c => some c) (fun _ => false) 2 3 = .ok st ∧
      st.trace[0]? = some (Ev.prime 0 0) ∧
      (∀ k, k < 2 * 3 →
        st.trace[5 * k]? = some (if k = 0 then Ev.prime (k % 3) (k % 3)
          else Ev.readSlot (k % 3) (k % 3)) ∧
        st.trace[5 * k + 1]? = some (Ev.launch ((k + 1) % 3)) ∧
        st.trace[5 * k + (if false then 2 else 3)]? =
          some (Ev.fit (k / 3) (k % 3) (k % 3))) ∧
      st.prefetched = (List.range (2 * 3)).map (fun k => (k + 1) % 3) ∧
      st.history = (List.range (2 * 3)).map (fun k => (k / 3, k % 3, k % 3)) :=
  c1_prefetch_schedule.1 Nat (fun c => c) (fun _ => false) 2 3 (by decide) (by decide)

theorem traceFrom_drop5 (f : Nat → β) (sigma : Nat → Bool) (n : Nat) :
    ∀ (k m a : Nat), k < m →
      (traceFrom f sigma n a m).drop (5 * k) =
        blockTrace f sigma n (a + k) ++ traceFrom f sigma n (a + k + 1) (m - (k + 1)) := by
  intro k
  induction k with
  | zero =>
    intro m a hk
    obtain ⟨m2, rfl⟩ : ∃ m2, m = m2 + 1 := ⟨m - 1, by omega⟩
    rw [traceFrom, List.range'_succ, List.flatMap_cons]
    norm_num [traceFrom]
  | succ k ih =>
    intro m a hk
    obtain ⟨m2, rfl⟩ : ∃ m2, m = m2 + 1 := ⟨m - 1, by omega⟩
    rw [traceFrom, List.range'_succ, List.flatMap_cons]
    rw [show 5 * (k + 1) = (blockTrace f sigma n a).length + 5 * k by
      rw [blockTrace_length]; ring]
    rw [List.drop_append]
    have hih := ih m2 (a + 1) (by omega)
    rw [traceFrom] at hih
    rw [hih, show a + 1 + k = a + (k + 1) by omega,
      show m2 - (k + 1) = m2 + 1 - (k + 1 + 1) by omega]

/-- C2: in every failure-free run, the handoff-slot write performed by
iteration `k`'s background worker (linearized anywhere in its launch-join
window, position `5k + 2` or `5k + 3` as chosen by `sigma`) strictly precedes
the slot read of iteration `k + 1` (position `5(k + 1)`); the read obtains
exactly the batch of the current chunk `(k + 1) mod n`, never a stale value;
and the five events from iteration `k`'s slot access up to (excluding)
iteration `k + 1`'s contain exactly one write. -/
theorem c2_handoff_ordering (β : Type) (f : Nat → β) (sigma : Nat → Bool)
    (loops n k : Nat) (hn : 1 ≤ n) (hk : k + 1 < loops * n) :
    ∃ st : SchedSt β, schedRun (fun c => some (f c)) sigma loops n = .ok st ∧
      st.trace[5 * k + (if sigma k then 3 else 2)]? =
        some (Ev.write ((k + 1) % n) (f ((k + 1) % n))) ∧
      st.trace[5 * (k + 1)]? =
        some (Ev.readSlot ((k + 1) % n) (f ((k + 1) % n))) ∧
      5 * k + (if sigma k then 3 else 2) < 5 * (k + 1) ∧
      ((st.trace.drop (5 * k)).take 5).countP isWriteEv = 1 := by
  refine ⟨canonSt f sigma n (loops * n), schedRun_total f sigma loops n hn,
    ?_, ?_, ?_, ?_⟩
  · have h := traceFrom_getElem f sigma n k (loops * n) 0 (if sigma k then 3 else 2)
      (by omega) (by by_cases hs : sigma k <;> simp [hs])
    rw [Nat.zero_add] at h
    rw [blockTrace_getWrite, ← mod_succ_mod] at h
    exact h
  · have h := traceFrom_getElem f sigma n (k + 1) (loops * n) 0 0 (by omega) (by omega)
    rw [Nat.zero_add, Nat.add_zero] at h
    rw [blockTrace_getObtain, if_neg (show ¬ k + 1 = 0 by omega)] at h
    exact h
  · by_cases hs : sigma k <;> simp [hs] <;> omega
  · have hdrop := traceFrom_drop5 f sigma n k (loops * n) 0 (by omega)
    rw [Nat.zero_add] at hdrop
    show ((((traceFrom f sigma n 0 (loops * n)).drop (5 * k)).take 5).countP isWriteEv) = 1
    rw [hdrop, show (5 : Nat) = (blockTrace f sigma n k).length from
      (blockTrace_length f sigma n k).symm, List.take_left]
    by_cases hs : sigma k <;>
      simp [blockTrace, hs, List.countP_cons, List.countP_append, isWriteEv] <;>
      by_cases hk0 : k = 0 <;> simp [hk0]

/-- Witness for C2 at `f = id`, `loops = 2`, 3 chunks, `k = 2` (the loop
boundary: iteration 2's worker prefetches chunk 0 of the second loop). -/
theorem c2_handoff_ordering_witness :
    ∃ st : SchedSt Nat, schedRun (fun c => some c) (fun _ => false) 2 3 = .ok st ∧
      st.trace[5 * 2 + (if false then 3 else 2)]? =
        some (Ev.write ((2 + 1) % 3) ((2 + 1) % 3)) ∧
      st.trace[5 * (2 + 1)]? =
        some (Ev.readSlot ((2 + 1) % 3) ((2 + 1) % 3)) ∧
      5 * 2 + (if false then 3 else 2) < 5 * (2 + 1) ∧
      ((st.trace.drop (5 * 2)).take 5).countP isWriteEv = 1 :=
  c2_handoff_ordering Nat (fun c => c) (fun _ => false) 2 3 2 (by decide) (by decide)

theorem schedStep_not_first (extract : Nat → Option β) (sigma : Nat → Bool) (n : Nat)
    (st : SchedSt β) (lc : Nat × Nat) (b : β) (h1 : st.firstChunk = false)
    (hb : st.slot = some b) :
    ∃ st1, schedStep extract sigma n st lc = .ok st1 ∧ st1.firstChunk = false ∧
      (∃ b1, st1.slot = some b1) ∧ st1.history.length = st.history.length + 1 := by
  simp only [schedStep, h1, hb, Bool.false_eq_true, if_false]
  cases hw : extract (if lc.2 < n - 1 then lc.2 + 1 else 0) with
  | none => exact ⟨_, rfl, rfl, ⟨b, rfl⟩, by simp⟩
  | some nb => exact ⟨_, rfl, rfl, ⟨nb, rfl⟩, by simp⟩

theorem schedStep_first (extract : Nat → Option β) (sigma : Nat → Bool) (n l c : Nat)
    (b : β) (h0 : extract c = some b) :
    ∃ st1, schedStep extract sigma n (initSt β) (l, c) = .ok st1 ∧
      st1.firstChunk = false ∧
      st1.slot = (match extract (if c < n - 1 then c + 1 else 0) with
        | some nb => some nb
        | Option.none => Option.none) ∧
      st1.history.length = 1 := by
  simp only [schedStep, initSt, h0]
  cases hw : extract (if c < n - 1 then c + 1 else 0) with
  | none => exact ⟨_, rfl, rfl, rfl, by simp⟩
  | some nb => exact ⟨_, rfl, rfl, rfl, by simp⟩

theorem schedRunAux_progress (extract : Nat → Option β) (sigma : Nat → Bool) (n : Nat) :
    ∀ (its : List (Nat × Nat)) (st : SchedSt β), st.firstChunk = false →
      (∃ b, st.slot = some b) →
      ∃ st2, schedRunAux extract sigma n its st = .ok st2 ∧
        st2.history.length = st.history.length + its.length := by
  intro its
  induction its with
  | nil => intro st _ _; exact ⟨st, rfl, by simp [schedRunAux]⟩
  | cons lc rest ih =>
    intro st h1 h2
    obtain ⟨b, hb⟩ := h2
    obtain ⟨st1, hstep, hp1, hp2, hp3⟩ := schedStep_not_first extract sigma n st lc b h1 hb
    rw [schedRunAux, hstep]
    obtain ⟨st2, h3, h4⟩ := ih st1 hp1 hp2
    refine ⟨st2, h3, ?_⟩
    rw [h4, hp3]
    simp only [List.length_cons]
    omega

/-- Counterexample to C3 as frozen: with 3 chunks and `loops = 2`, an
extractor that raises on chunk index 2 does *not* abort the run at the join:
`process.join()` returns normally regardless of the child's exit status, the
slot keeps its previous contents, and the run completes with all 6 fit
records — iterations `(0,2)` and `(1,2)` silently train on chunk 1's stale
batch instead of chunk 2's. -/
theorem c3_counterexample :
    (fun c => if c = 2 then (Option.none : Option Nat) else some c) 2 = Option.none ∧
    (schedRun (fun c => if c = 2 then (Option.none : Option Nat) else some c)
        (fun _ => false) 2 3).map (fun st => (st.history, st.prefetched)) =
      .ok ([(0, 0, 0), (0, 1, 1), (0, 2, 1), (1, 0, 0), (1, 1, 1), (1, 2, 1)],
        [1, 2, 0, 1, 2, 0]) :=
  ⟨rfl, by decide⟩

/-- C3 (amended): a Sample-Extractor failure inside a background worker never
propagates to the main flow at the join: provided the priming extraction
(chunk 0) and the very first prefetch (chunk `1 mod n`) succeed, a run whose
extractor fails on some chunk `j` still completes with one fit record per
`(loop, chunk)` pair — `loops * n` records in total — the failed chunk having
been silently replaced by the stale contents of the handoff slot. -/
theorem c3_worker_failure_not_propagated (β : Type) (extract : Nat → Option β)
    (sigma : Nat → Bool) (loops n j : Nat) (b0 b1 : β)
    (hl : 1 ≤ loops) (hn : 1 ≤ n)
    (h0 : extract 0 = some b0) (h1 : extract (1 % n) = some b1)
    (hj : j < n) (hjfail : extract j = Option.none) :
    ∃ st, schedRun extract sigma loops n = .ok st ∧
      st.history.length = loops * n := by
  have hK : 1 ≤ loops * n := Nat.mul_pos (by omega) (by omega)
  obtain ⟨rest, hiters, hrlen⟩ : ∃ rest, loopIters loops n = (0, 0) :: rest ∧
      rest.length = loops * n - 1 := by
    rw [loopIters_eq]
    obtain ⟨K, hKe⟩ : ∃ K, loops * n = K + 1 := ⟨loops * n - 1, by omega⟩
    rw [hKe, List.range_succ_eq_map]
    refine ⟨(List.range K).map ((fun k => (k / n, k % n)) ∘ Nat.succ), ?_, by simp⟩
    simp
  rw [schedRun, hiters]
  have hnext : (if (0 : Nat) < n - 1 then (0 : Nat) + 1 else 0) = 1 % n := by
    by_cases hc : (0 : Nat) < n - 1
    · rw [if_pos hc, Nat.mod_eq_of_lt (by omega)]
    · rw [if_neg hc]
      have hn1 : n = 1 := by omega
      rw [hn1]
  obtain ⟨st1, hstep, hp1, hslot, hp3⟩ := schedStep_first extract sigma n 0 0 b0 h0
  have hp2 : ∃ bb, st1.slot = some bb := by
    rw [hslot, hnext, h1]
    exact ⟨b1, rfl⟩
  rw [schedRunAux, hstep]
  obtain ⟨st2, h3, h4⟩ := schedRunAux_progress extract sigma n rest st1 hp1 hp2
  exact ⟨st2, h3, by rw [h4, hp3, hrlen]; omega⟩

/-- Witness for the amended C3 at the counterexample's extractor. -/
theorem c3_worker_failure_not_propagated_witness :
    ∃ st : SchedSt Nat,
      schedRun (fun c => if c = 2 then (Option.none : Option Nat) else some c)
        (fun _ => false) 2 3 = .ok st ∧
      st.history.length = 2 * 3 :=
  c3_worker_failure_not_propagated Nat
    (fun c => if c = 2 then (Option.none : Option Nat) else some c)
    (fun _ => false) 2 3 2 0 1 (by decide) (by decide) (by decide) (by decide)
    (by decide) (by decide)

/-- C6: if `loops = 0` or the chunk list is empty, the setup steps still run
— the pipeline returns the materialized validation SampleBatch and the
`init_fit` batch drawn from the `scaler_fit_size` head of `train_set` — but
no fit call occurs: the loop state is exactly the initial state (empty
TrainingHistory, empty trace, no prefetches), so the Trainable remains at its
post-setup state. -/
theorem c6_no_training (β : Type) (extractSet : List Int → Option β)
    (sigma : Nat → Bool) (valStrat : String)
    (numDates valSize chunk_size scaler_fit_size loops : Nat) (oracle : Nat → Nat)
    (train_set val_set : List Int) (pval initBatch : β)
    (hsplit : splitSets valStrat numDates valSize oracle = .ok (train_set, val_set))
    (hval : extractSet val_set = some pval)
    (hfit : extractSet (train_set.take scaler_fit_size) = some initBatch)
    (hzero : loops = 0 ∨ mkChunks train_set chunk_size = []) :
    pipeline extractSet sigma valStrat numDates valSize chunk_size scaler_fit_size
        loops oracle =
      .ok ((train_set, val_set), pval, initBatch, initSt β) := by
  have hrun : schedRun (fun c => extractSet ((mkChunks train_set chunk_size).getD c []))
      sigma loops (mkChunks train_set chunk_size).length = .ok (initSt β) := by
    rcases hzero with h | h
    · subst h
      rw [schedRun, show loopIters 0 (mkChunks train_set chunk_size).length = [] from rfl]
      rfl
    · rw [h, schedRun]
      have hli : loopIters loops ([] : List (List Int)).length = [] := by
        simp [loopIters]
      rw [hli]
      rfl
  simp only [pipeline, hsplit, hval, hfit, hrun]

/-- Witness for C6 at `loops = 0` with the identity extractor. -/
theorem c6_no_training_witness :
    pipeline (fun l => some l) (fun _ => false) "first" 5 2 2 3 0 (fun _ => 0) =
      .ok (([2, 3, 4], [0, 1]), [0, 1], [2, 3, 4], initSt (List Int)) :=
  c6_no_training (List Int) (fun l => some l) (fun _ => false) "first" 5 2 2 3 0
    (fun _ => 0) [2, 3, 4] [0, 1] [0, 1] [2, 3, 4] (by decide) rfl rfl (Or.inl rfl)

theorem Heap.lookup_alloc_self (h : Heap α) (x : α) :
    (h.alloc x).1.lookup (h.alloc x).2 = some x := by
  simp [Heap.alloc, Heap.lookup, List.lookup]

theorem Heap.lookup_alloc_ne (h : Heap α) (x : α) (a : Nat) (hne : a ≠ h.nextAddr) :
    (h.alloc x).1.lookup a = h.lookup a := by
  have hne2 : (a == h.nextAddr) = false := by
    simp only [beq_eq_false_iff_ne, ne_eq]
    omega
  simp [Heap.alloc, Heap.lookup, List.lookup, hne2]

theorem Heap.lookup_mem (h : Heap α) :
    ∀ (l : List (Nat × α)) (a : Nat) (x : α),
      List.lookup a l = some x → (a, x) ∈ l := by
  intro l
  induction l with
  | nil => intro a x hx; simp [List.lookup] at hx
  | cons p t ih =>
    intro a x hx
    obtain ⟨k, v⟩ := p
    by_cases hk : a = k
    · subst hk
      simp [List.lookup] at hx
      subst hx
      exact List.mem_cons_self _ _
    · have hk2 : (a == k) = false := by
        simp only [beq_eq_false_iff_ne, ne_eq]
        omega
      rw [List.lookup, hk2] at hx
      exact List.mem_cons_of_mem _ (ih a x hx)

theorem Heap.lookup_lt (h : Heap α) (a : Nat) (x : α) (hwf : h.wf)
    (hx : h.lookup a = some x) : a < h.nextAddr :=
  hwf (a, x) (Heap.lookup_mem h h.mem a x hx)

theorem lookup_map_update_ne (a b : Nat) (y : α) (hne : b ≠ a) :
    ∀ (l : List (Nat × α)),
      List.lookup b (l.map (fun p => if p.1 = a then (a, y) else p)) =
        List.lookup b l := by
  intro l
  induction l with
  | nil => rfl
  | cons p t ih =>
    obtain ⟨k, v⟩ := p
    rw [List.map_cons]
    by_cases hk : k = a
    · subst hk
      rw [show (if (k, v).1 = k then (k, y) else (k, v)) = (k, y) by simp]
      rw [List.lookup, List.lookup]
      have hbk : (b == k) = false := by
        simp only [beq_eq_false_iff_ne, ne_eq]
        omega
      rw [hbk]
      exact ih
    · rw [show (if (k, v).1 = a then (a, y) else (k, v)) = (k, v) by simp [hk]]
      rw [List.lookup, List.lookup]
      cases hbk : (b == k) with
      | true => rfl
      | false => exact ih

theorem lookup_map_update_self (a : Nat) (y : α) :
    ∀ (l : List (Nat × α)) (x : α), List.lookup a l = some x →
      List.lookup a (l.map (fun p => if p.1 = a then (a, y) else p)) = some y := by
  intro l
  induction l with
  | nil =>
    intro x hx
    rw [List.lookup] at hx
    exact Option.noConfusion hx
  | cons p t ih =>
    intro x hx
    obtain ⟨k, v⟩ := p
    rw [List.map_cons]
    by_cases hk : k = a
    · subst hk
      rw [show (if (k, v).1 = k then (k, y) else (k, v)) = (k, y) by simp]
      rw [List.lookup, beq_self_eq_true]
    · have hk2 : (a == k) = false := by
        simp only [beq_eq_false_iff_ne, ne_eq]
        omega
      rw [List.lookup, hk2] at hx
      rw [show (if (k, v).1 = a then (a, y) else (k, v)) = (k, v) by simp [hk]]
      rw [List.lookup, hk2]
      exact ih x hx

theorem Heap.lookup_update_ne (h : Heap α) (a b : Nat) (y : α) (hne : b ≠ a) :
    (h.update a y).lookup b = h.lookup b :=
  lookup_map_update_ne a b y hne h.mem

theorem Heap.lookup_update_self (h : Heap α) (a : Nat) (x y : α)
    (hx : h.lookup a = some x) : (h.update a y).lookup a = some y :=
  lookup_map_update_self a y h.mem x hx

theorem Heap.alloc_nextAddr (h : Heap α) (x : α) :
    (h.alloc x).1.nextAddr = h.nextAddr + 1 := rfl

theorem Heap.alloc_addr (h : Heap α) (x : α) : (h.alloc x).2 = h.nextAddr := rfl

/-- C8: on a slot read, the arrays passed to `fit` are fresh copies of the
HandoffSlot's arrays; the background worker launched in the same iteration
publishes the next chunk's batch into the slot while the fit runs, at fresh
addresses distinct from the copies, so the batch being trained on is left
unchanged — and the slot afterwards holds the new batch. -/
theorem c8_fit_batch_isolated (α : Type) (h : Heap α) (s : SlotAddrs)
    (pv tv npv ntv : α)
    (hp : h.lookup s.p = some pv) (ht : h.lookup s.t = some tv) :
    ∃ h4 pa ta s2,
      iterationOverlap h s npv ntv = some (h4, pa, ta, s2) ∧
      h4.lookup pa = some pv ∧
      h4.lookup ta = some tv ∧
      s2.p ≠ pa ∧ s2.t ≠ ta ∧
      h4.lookup s2.p = some npv ∧
      h4.lookup s2.t = some ntv := by
  simp only [iterationOverlap, readChunkCopy, workerPublish, hp, ht]
  refine ⟨_, _, _, _, rfl, ?_, ?_, ?_, ?_, ?_, ?_⟩
  · rw [Heap.lookup_alloc_ne _ _ _ (by simp only [Heap.alloc_addr, Heap.alloc_nextAddr]; omega),
      Heap.lookup_alloc_ne _ _ _ (by simp only [Heap.alloc_addr, Heap.alloc_nextAddr]; omega),
      Heap.lookup_alloc_ne _ _ _ (by simp only [Heap.alloc_addr, Heap.alloc_nextAddr]; omega)]
    exact Heap.lookup_alloc_self h pv
  · rw [Heap.lookup_alloc_ne _ _ _ (by simp only [Heap.alloc_addr, Heap.alloc_nextAddr]; omega),
      Heap.lookup_alloc_ne _ _ _ (by simp only [Heap.alloc_addr, Heap.alloc_nextAddr]; omega)]
    exact Heap.lookup_alloc_self _ tv
  · simp only [Heap.alloc_addr, Heap.alloc_nextAddr]
    omega
  · simp only [Heap.alloc_addr, Heap.alloc_nextAddr]
    omega
  · rw [Heap.lookup_alloc_ne _ _ _ (by simp only [Heap.alloc_addr, Heap.alloc_nextAddr]; omega)]
    exact Heap.lookup_alloc_self _ npv
  · exact Heap.lookup_alloc_self _ ntv

/-- Witness for C8 at a concrete two-array heap. -/
theorem c8_fit_batch_isolated_witness :
    ∃ h4 pa ta s2,
      iterationOverlap (Heap.mk [(0, 10), (1, 20)] 2) (SlotAddrs.mk 0 1) 30 40 =
        some (h4, pa, ta, s2) ∧
      h4.lookup pa = some 10 ∧
      h4.lookup ta = some 20 ∧
      s2.p ≠ pa ∧ s2.t ≠ ta ∧
      h4.lookup s2.p = some 30 ∧
      h4.lookup s2.t = some 40 :=
  c8_fit_batch_isolated Nat (Heap.mk [(0, 10), (1, 20)] 2) (SlotAddrs.mk 0 1)
    10 20 30 40 (by decide) (by decide)

/-- C10: `save_model` leaves the passed model instance unchanged: it writes
the native model content to the `.keras` file, pickles a deep copy whose
`model` attribute was set to `None`, and after it returns the original
instance still holds its `model` attribute and all other state. -/
theorem c10_save_model_frame (h : Heap SelectorObj) (a : Nat) (obj : SelectorObj)
    (m : Nat) (hwf : h.wf) (ha : h.lookup a = some obj) (hm : obj.model = some m) :
    ∃ h2 ca,
      save_model h a = .ok (h2, ca, ⟨m, { obj with model := Option.none }⟩) ∧
      ca ≠ a ∧
      h2.lookup a = some obj ∧
      h2.lookup ca = some { obj with model := Option.none } := by
  have halt : a < h.nextAddr := Heap.lookup_lt h a obj hwf ha
  simp only [save_model, ha, hm]
  refine ⟨_, _, rfl, ?_, ?_, ?_⟩
  · rw [Heap.alloc_addr]
    omega
  · rw [Heap.lookup_update_ne _ _ _ _ (by rw [Heap.alloc_addr]; omega),
      Heap.lookup_alloc_ne _ _ _ (by omega)]
    exact ha
  · exact Heap.lookup_update_self _ _ obj _ (Heap.lookup_alloc_self h obj)

/-- Witness for C10 at a concrete one-object heap. -/
theorem c10_save_model_frame_witness :
    ∃ h2 ca,
      save_model (Heap.mk [(0, SelectorObj.mk (some 7) 42)] 1) 0 =
        .ok (h2, ca, ⟨7, SelectorObj.mk Option.none 42⟩) ∧
      ca ≠ 0 ∧
      h2.lookup 0 = some (SelectorObj.mk (some 7) 42) ∧
      h2.lookup ca = some (SelectorObj.mk Option.none 42) :=
  c10_save_model_frame (Heap.mk [(0, SelectorObj.mk (some 7) 42)] 1) 0
    (SelectorObj.mk (some 7) 42) 7 (by decide) (by decide) (by decide)

example : mkChunks [5, 6, 7, 8, 9, 10, 11] 3 = [[5, 6, 7], [8, 9, 10], [11]] := by decide
example : splitSets "first" 5 2 (fun _ => 0) = .ok ([2, 3, 4], [0, 1]) := by decide
example : splitSets "random" 4 2 (fun _ => 0) = .ok ([2, 3], [0, 1]) := by decide
example : splitSets "weird" 4 2 (fun _ => 0) = .error .configError := by decide
